import Mathlib

/-!
Verification development for the Multiverse localization editor
(`src/utils.ts` PathCodec, `src/App.tsx` reconciler / query evaluator /
suggestion batcher, `src/services/geminiService.ts` provider wrapper).

Documents are JSON-like values built from objects, arrays and the
scalar `ValueType = string | number | boolean` of `src/types.ts`.
-/

/-- Scalar leaf values, mirroring `ValueType = string | number | boolean`. -/
inductive Prim where
  | str (s : String)
  | num (n : Int)
  | bool (b : Bool)
deriving DecidableEq, Repr

/-- JS truthiness of a scalar: empty string, 0 and false are falsy. -/
def Prim.truthy : Prim → Bool
  | .str s => s ≠ ""
  | .num n => n ≠ 0
  | .bool b => b

/-- Lowercase a string character-wise (JS `toLowerCase`). -/
def jsToLower (s : String) : String :=
  ⟨s.toList.map Char.toLower⟩

/-- Strip leading and trailing whitespace (JS `trim`). -/
def jsTrim (s : String) : String :=
  ⟨(((s.toList.dropWhile Char.isWhitespace).reverse.dropWhile Char.isWhitespace).reverse)⟩

/-- `typeof v === "string"`. -/
def Prim.isStr : Prim → Bool
  | .str _ => true
  | _ => false

/-- A JSON-like document: nested objects, arrays and scalar leaves. -/
inductive JsVal where
  | obj (fields : List (String × JsVal))
  | arr (elems : List JsVal)
  | prim (p : Prim)

mutual
/-- Boolean structural equality of documents. -/
def JsVal.beq : JsVal → JsVal → Bool
  | .obj fs, .obj gs => JsVal.beqFields fs gs
  | .arr es, .arr ds => JsVal.beqElems es ds
  | .prim p, .prim q => p = q
  | _, _ => false

/-- Boolean equality of object field lists. -/
def JsVal.beqFields : List (String × JsVal) → List (String × JsVal) → Bool
  | [], [] => true
  | (k, v) :: fs, (l, w) :: gs => k = l && JsVal.beq v w && JsVal.beqFields fs gs
  | _, _ => false

/-- Boolean equality of array element lists. -/
def JsVal.beqElems : List JsVal → List JsVal → Bool
  | [], [] => true
  | v :: es, w :: ds => JsVal.beq v w && JsVal.beqElems es ds
  | _, _ => false
end

mutual
theorem JsVal.beq_iff (a b : JsVal) : JsVal.beq a b = true ↔ a = b := by
  cases a with
  | obj fs =>
    cases b with
    | obj gs => simpa [JsVal.beq] using (JsVal.beqFields_iff fs gs)
    | arr ds => simp [JsVal.beq]
    | prim q => simp [JsVal.beq]
  | arr es =>
    cases b with
    | obj gs => simp [JsVal.beq]
    | arr ds => simpa [JsVal.beq] using (JsVal.beqElems_iff es ds)
    | prim q => simp [JsVal.beq]
  | prim p =>
    cases b with
    | obj gs => simp [JsVal.beq]
    | arr ds => simp [JsVal.beq]
    | prim q => simp [JsVal.beq]

theorem JsVal.beqFields_iff (fs gs : List (String × JsVal)) :
    JsVal.beqFields fs gs = true ↔ fs = gs := by
  cases fs with
  | nil => cases gs with
    | nil => simp [JsVal.beqFields]
    | cons g gs => simp [JsVal.beqFields]
  | cons f fs =>
    cases gs with
    | nil => obtain ⟨k, v⟩ := f; simp [JsVal.beqFields]
    | cons g gs =>
      obtain ⟨k, v⟩ := f
      obtain ⟨l, w⟩ := g
      have h1 := JsVal.beq_iff v w
      have h2 := JsVal.beqFields_iff fs gs
      simp [JsVal.beqFields, h1, h2]

theorem JsVal.beqElems_iff (es ds : List JsVal) :
    JsVal.beqElems es ds = true ↔ es = ds := by
  cases es with
  | nil => cases ds with
    | nil => simp [JsVal.beqElems]
    | cons d ds => simp [JsVal.beqElems]
  | cons e es =>
    cases ds with
    | nil => simp [JsVal.beqElems]
    | cons d ds =>
      have h1 := JsVal.beq_iff e d
      have h2 := JsVal.beqElems_iff es ds
      simp [JsVal.beqElems, h1, h2]
end

instance : DecidableEq JsVal := fun a b =>
  decidable_of_iff (JsVal.beq a b = true) (JsVal.beq_iff a b)

/-- JS truthiness of a document node: every object and array is truthy. -/
def JsVal.truthy : JsVal → Bool
  | .obj _ => true
  | .arr _ => true
  | .prim p => p.truthy

/-- One segment of a leaf path: an object key or an array index. -/
inductive Seg where
  | okey (k : String)
  | aidx (i : Nat)
deriving DecidableEq, Repr

/-- `replaceAll("][", '.')` on a character list: replace every
non-overlapping occurrence of `][`, scanning left to right. -/
def replBrackets : List Char → List Char
  | [] => []
  | [c] => [c]
  | c1 :: c2 :: cs =>
      if c1 = ']' ∧ c2 = '[' then '.' :: replBrackets cs
      else c1 :: replBrackets (c2 :: cs)

/-- `replaceAll("\"", "\'")` on a character list. -/
def quoteToApos (cs : List Char) : List Char :=
  cs.map (fun c => if c = '"' then '\'' else c)

/-- The decimal digit character for `n < 10`. -/
def digitChar10 (n : Nat) : Char :=
  Char.ofNat (48 + n)

/-- Decimal digits of `n`, most significant first, with explicit fuel
(structural recursion; `fuel ≥ n` is always enough). -/
def natDigitsAux : Nat → Nat → List Char
  | 0, n => [digitChar10 n]
  | fuel + 1, n =>
      if n < 10 then [digitChar10 n]
      else natDigitsAux fuel (n / 10) ++ [digitChar10 (n % 10)]

/-- Decimal rendering of a natural number (JS number-to-string of an array
index). -/
def natDigits (n : Nat) : List Char :=
  natDigitsAux n n

/-- The characters of the rendering of one path segment produced by
`flattenObject`'s pipeline over the walkjs path
(`raw.substring(1, raw.length - 1).replaceAll("][", '.').replaceAll("\"", "\'")`):
walkjs renders an object key `k` as `["k"]` and an array index `i` as `[i]`;
after the pipeline an object segment is `k` wrapped in apostrophes with any
`][` inside the key collapsed to `.` and any `"` inside it turned into an
apostrophe, while an array segment is the plain decimal numeral.  (Applying
the two `replaceAll`s segment-wise agrees with applying them to the whole
raw path: every boundary between segments contributes exactly one `][`
pair, whose `]` is preceded by `"` or a digit and whose `[` is followed by
`"` or a digit, so boundary replacements and in-key replacements never
overlap.) -/
def Seg.chars : Seg → List Char
  | .okey k => '\'' :: (quoteToApos (replBrackets k.toList) ++ ['\''])
  | .aidx i => natDigits i

/-- `.toString()` of a scalar value. -/
def Prim.toStr : Prim → String
  | .str s => s
  | .num n => if n < 0 then ⟨'-' :: natDigits n.natAbs⟩ else ⟨natDigits n.natAbs⟩
  | .bool b => if b then "true" else "false"

/-- Join rendered segments with `.`, as the pipeline's `replaceAll("][", '.')`
does at segment boundaries. -/
def joinDot : List (List Char) → List Char
  | [] => []
  | [x] => x
  | x :: xs => x ++ '.' :: joinDot xs

/-- The flattened key emitted for a leaf reached through `segs`. -/
def pathKey (segs : List Seg) : String :=
  ⟨joinDot (segs.map Seg.chars)⟩

mutual
/-- `flattenObject`'s walk (walkjs depth-first visit of every node, keeping
scalar nodes only), with the path prefix accumulated explicitly: visiting a
scalar emits `(key, value)` where `key` is the pipeline rendering of its path. -/
def flattenRaw : JsVal → List Seg → List (String × Prim)
  | .prim p, pre => [(pathKey pre, p)]
  | .obj fs, pre => flattenFields fs pre
  | .arr es, pre => flattenElems es 0 pre

/-- Walk the fields of an object node in order. -/
def flattenFields : List (String × JsVal) → List Seg → List (String × Prim)
  | [], _ => []
  | (k, v) :: fs, pre => flattenRaw v (pre ++ [Seg.okey k]) ++ flattenFields fs pre

/-- Walk the elements of an array node in index order. -/
def flattenElems : List JsVal → Nat → List Seg → List (String × Prim)
  | [], _, _ => []
  | v :: es, i, pre => flattenRaw v (pre ++ [Seg.aidx i]) ++ flattenElems es (i + 1) pre
end

mutual
/-- The scalar leaves of a document with their segment addresses, defined
independently of any key rendering (used to state what `flattenObject` emits). -/
def leaves : JsVal → List (List Seg × Prim)
  | .prim p => [([], p)]
  | .obj fs => leavesFields fs
  | .arr es => leavesElems es 0

/-- Leaves of an object's field list. -/
def leavesFields : List (String × JsVal) → List (List Seg × Prim)
  | [] => []
  | (k, v) :: fs =>
      (leaves v).map (fun sp => (Seg.okey k :: sp.1, sp.2)) ++ leavesFields fs

/-- Leaves of an array's element list, indexing from `i`. -/
def leavesElems : List JsVal → Nat → List (List Seg × Prim)
  | [], _ => []
  | v :: es, i =>
      (leaves v).map (fun sp => (Seg.aidx i :: sp.1, sp.2)) ++ leavesElems es (i + 1)
end

/-- JS property write `m[k] = v` on a string-keyed record: overwrite the
existing property in place, else append a new one. -/
def jsSet (m : List (String × Prim)) (k : String) (v : Prim) : List (String × Prim) :=
  if m.any (fun p => p.1 = k) then
    m.map (fun p => if p.1 = k then (k, v) else p)
  else
    m ++ [(k, v)]

/-- `flattenObject(obj)`: walk the document and collect `newObj[key] = node.val`
for every scalar node. -/
def flattenObject (o : JsVal) : List (String × Prim) :=
  (flattenRaw o []).foldl (fun m kv => jsSet m kv.1 kv.2) []

/-- Value of a digit string, e.g. `digitsVal ['4','2'] = 42`. -/
def digitsVal (cs : List Char) : Nat :=
  cs.foldl (fun a c => a * 10 + (c.toNat - '0'.toNat)) 0

/-- Whether a property name is a canonical array index in the sense of
ECMAScript property enumeration: a non-empty digit string without a leading
zero (except `"0"` itself) whose value is below 2^32 - 1.  Such keys are
enumerated first, in ascending numeric order, by `Object.keys` / `for..in`. -/
def isIntIndex (s : String) : Bool :=
  let cs := s.toList
  !cs.isEmpty && cs.all Char.isDigit && (cs = ['0'] || cs.head? ≠ some '0')
    && digitsVal cs < 4294967295

/-- Insert a key into a list sorted by numeric value (ascending). -/
def insertByVal (k : String) : List String → List String
  | [] => [k]
  | x :: xs =>
      if digitsVal k.toList ≤ digitsVal x.toList then k :: x :: xs
      else x :: insertByVal k xs

/-- Sort integer-index keys in ascending numeric order. -/
def sortIndices (ks : List String) : List String :=
  ks.foldr insertByVal []

/-- `Object.keys(m)` / `for..in` enumeration order of a string-keyed record:
canonical array-index keys first in ascending numeric order, then the
remaining keys in insertion order. -/
def jsKeys (m : List (String × Prim)) : List String :=
  sortIndices ((m.map Prod.fst).filter (fun k => isIntIndex k))
    ++ (m.map Prod.fst).filter (fun k => !isIntIndex k)

/-- Property read `m[k]` on a string-keyed record. -/
def jsGet (m : List (String × Prim)) (k : String) : Option Prim :=
  (m.find? (fun p => p.1 = k)).map Prod.snd

/-- `rawKey.split('.')` on the character list, accumulator-style. -/
def splitDotAux : List Char → List Char → List (List Char)
  | [], acc => [acc.reverse]
  | c :: cs, acc =>
      if c = '.' then acc.reverse :: splitDotAux cs []
      else splitDotAux cs (c :: acc)

/-- `rawKey.split('.')`: JS split on a literal dot (never returns `[]`;
splitting the empty string yields `[""]`). -/
def splitDot (s : String) : List String :=
  (splitDotAux s.toList []).map (fun cs => ⟨cs⟩)

/-- `k.replaceAll("\'", "")`: drop every apostrophe of a segment. -/
def stripApos (s : String) : String :=
  ⟨s.toList.filter (fun c => c ≠ '\'')⟩

/-- `keys[j + 1]?.includes("\'")`: does the segment carry an apostrophe
(meaning its container was an object, since `flattenObject` quotes object
keys with apostrophes and renders array indices bare)? -/
def hasApos (s : String) : Bool :=
  s.toList.any (fun c => c = '\'')

/-- Property read `acc[k]` on a document node.  On an array only a canonical
index reads an element; a primitive has no own properties. -/
def JsVal.getProp : JsVal → String → Option JsVal
  | .obj fs, k => (fs.find? (fun p => p.1 = k)).map Prod.snd
  | .arr es, k => if isIntIndex k then es.get? (digitsVal k.toList) else none
  | .prim _, _ => none

/-- Property write `acc[k] = v` on a document node.  Objects overwrite in
place or append; arrays write at a canonical index (extending a too-short
array, as JSON serialization renders the holes); a write to a non-index
array property succeeds in JS but the property is invisible to the
JSON.stringify that commits the file, so it is dropped here; a write on a
primitive receiver throws a TypeError, because utils.ts is an ES module and
thus strict-mode code — `.error ()` models that exception. -/
def JsVal.setProp : JsVal → String → JsVal → Except Unit JsVal
  | .obj fs, k, v =>
      .ok (.obj (if fs.any (fun p => p.1 = k) then
              fs.map (fun p => if p.1 = k then (k, v) else p)
            else fs ++ [(k, v)]))
  | .arr es, k, v =>
      if isIntIndex k then
        let i := digitsVal k.toList
        if i < es.length then .ok (.arr (es.set i v))
        else .ok (.arr (es ++ List.replicate (i - es.length) (JsVal.prim (Prim.str "")) ++ [v]))
      else .ok (.arr es)
  | .prim _, _, _ => .error ()

/-- `keys[j + 1]?.includes("\'") ? {} : []`: the container allocated for a
missing/falsy intermediate, chosen by whether the next segment looks like a
quoted object key. -/
def defaultChild (next : String) : JsVal :=
  if hasApos next then .obj [] else .arr []

/-- Re-attach an updated child under key `k`: the functional rendering of
the in-place mutation the JS reduce performs on the child it walked into
(the child is aliased, so in JS the mutation is visible through `acc`
without a second write); an exception raised below propagates. -/
def putBack (acc : JsVal) (k : String) : Except Unit JsVal → Except Unit JsVal
  | .error e => .error e
  | .ok c => acc.setProp k c

/-- The `keys.reduce` walk of `unflattenObject` for one entry, written as a
functional update: strip apostrophes from the current segment, descend into
the existing truthy child or a freshly allocated container, and assign the
scalar at the final segment.  The real writes — the leaf assignment
`acc[k] = data[rawKey]` and the allocation `acc[k] = {}` / `[]` for a
missing or falsy child — throw when `acc` is a primitive; both surface here
as `.error` (when `acc` is a primitive, `getProp` is `none`, the walk
allocates a detached child and the re-attach write fails, matching the
TypeError the JS allocation write raises). -/
def assignPath : JsVal → List String → Prim → Except Unit JsVal
  | acc, [], _ => .ok acc
  | acc, [k], v => acc.setProp (stripApos k) (.prim v)
  | acc, k :: k2 :: rest, v =>
      let k' := stripApos k
      let child :=
        match acc.getProp k' with
        | some c => if c.truthy then c else defaultChild k2
        | none => defaultChild k2
      putBack acc k' (assignPath child (k2 :: rest) v)

/-- `unflattenObject(data, base)`: deep-copy the base (the copy is the value
itself in this model) and play every entry's segment walk over it, entries
enumerated in JS `for..in` order; a TypeError thrown inside an entry's walk
(a property write on a primitive) aborts the loop and propagates out of the
whole call. -/
def unflattenObject (data : List (String × Prim)) (base : JsVal) :
    Except Unit JsVal :=
  (jsKeys data).foldl
    (fun acc k =>
      match acc with
      | .error e => .error e
      | .ok a =>
          match jsGet data k with
          | some v => assignPath a (splitDot k) v
          | none => .ok a)
    (.ok base)

/-- One translation entry of a project's RowTable (`TranslationRow` of
`src/types.ts`; `aiSuggestion?: string` is modelled with `""` standing for
an absent/undefined suggestion, and `pastSourceValue` is omitted because
`handleFetchFiles` never writes it). -/
structure Row where
  key : String
  sourceValue : String
  targetValue : String
  originalTargetValue : String
  aiSuggestion : String
deriving DecidableEq, Repr

/-- JS `a || b` on strings: the left operand unless it is empty. -/
def jsOr (a b : String) : String :=
  if a = "" then b else a

/-- The keys of the flattened source that pass
`typeof flatSource[key] === 'string'`, in `Object.keys` order. -/
def stringKeys (S : List (String × Prim)) : List String :=
  (jsKeys S).filter (fun k =>
    match jsGet S k with
    | some v => v.isStr
    | none => false)

/-- `flatSource[key].toString()`. -/
def srcAt (S : List (String × Prim)) (k : String) : String :=
  ((jsGet S k).map Prim.toStr).getD ""

/-- `flatTarget[key] ? flatTarget[key].toString() : flatSource[key].toString()`:
the freshly computed `originalTargetValue` — the fetched target string, or
the source string when the target value is absent or falsy. -/
def origAt (S T : List (String × Prim)) (k : String) : String :=
  match jsGet T k with
  | some v => if v.truthy then v.toStr else srcAt S k
  | none => srcAt S k

/-- The row built by `handleFetchFiles` for one key of the flattened source:
`sourceValue` is the fetched string; `originalTargetValue` is `origAt`;
`targetValue` adopts the new original unless the previously displayed row
had diverged, in which case it is preserved verbatim (`row?.targetValue || ''`);
`aiSuggestion` is carried over (or empty). -/
def rowFor (R : List Row) (S T : List (String × Prim)) (k : String) : Row :=
  let row? := (R.filter (fun r => r.key = k)).head?
  { key := k
    sourceValue := srcAt S k
    targetValue :=
      match row? with
      | none => origAt S T k
      | some r =>
          if r.targetValue = r.originalTargetValue then origAt S T k else jsOr r.targetValue ""
    originalTargetValue := origAt S T k
    aiSuggestion :=
      match row? with
      | none => ""
      | some r => jsOr r.aiSuggestion "" }

/-- The Reconciler (`handleFetchFiles`, lines 177–191): rebuild the table
from the string-valued keys of the freshly flattened source, preserving
diverged targets and carried-over suggestions from the previous table. -/
def reconcile (R : List Row) (S T : List (String × Prim)) : List Row :=
  (stringKeys S).map (rowFor R S T)

/-- Number of rows whose target diverges from the last pushed value
(`modifiedCount`, line 333). -/
def modifiedCount (rows : List Row) : Nat :=
  (rows.filter (fun r => r.targetValue ≠ r.originalTargetValue)).length

/-- Row-table effect of a successful push (`handlePushToGitHub`): every
row's `originalTargetValue` becomes its current `targetValue`. -/
def applyPushSuccess (rows : List Row) : List Row :=
  rows.map (fun r => { r with originalTargetValue := r.targetValue })

/-- Outcome of the network push. -/
inductive PushOutcome where
  | success
  | failure

/-- `handlePushToGitHub` on the row table: the success path rebases every
row's original onto the current target; the failure path (the `catch`
branch) leaves the table untouched. -/
def handlePushToGitHub (rows : List Row) : PushOutcome → List Row
  | .success => applyPushSuccess rows
  | .failure => rows

deriving instance DecidableEq for Except

/-- JS `s.includes(pat)`: substring containment. -/
def jsIncludes (s pat : String) : Bool :=
  decide (pat.toList <:+: s.toList)

/-- JS `searchTerm.substring(0, searchTerm.includes("#") ? searchTerm.indexOf("#") : searchTerm.length)`:
the text before the first `#`. -/
def beforeHash (s : String) : String :=
  ⟨s.toList.takeWhile (fun c => c ≠ '#')⟩

/-- `split("||")` on the character list: cut at every non-overlapping
occurrence of `||`, scanning left to right (accumulator holds the current
piece reversed). -/
def splitOrAux : List Char → List Char → List (List Char)
  | [], acc => [acc.reverse]
  | '|' :: '|' :: cs, acc => acc.reverse :: splitOrAux cs []
  | c :: cs, acc => splitOrAux cs (c :: acc)

/-- `raw.split("||")`: the OR-clauses of a raw query. -/
def splitOr (s : String) : List String :=
  (splitOrAux s.toList []).map (fun cs => ⟨cs⟩)

/-- `/^.*\.\d+$/.test(key)` (the `#inarray` predicate): the key ends in a
dot followed by one or more digits, and the part before that dot contains no
line terminator (which JS `.` does not match). -/
def inarrayTest (k : String) : Bool :=
  let rcs := k.toList.reverse
  let ds := rcs.takeWhile Char.isDigit
  match rcs.drop ds.length with
  | [] => false
  | c :: a =>
      !ds.isEmpty && c = '.'
        && a.all (fun ch => ch ≠ '\n' && ch ≠ '\r' && ch.toNat ≠ 0x2028 && ch.toNat ≠ 0x2029)

/-- The host's regular-expression engine, abstracted: `compile pat` is
`none` when `new RegExp(pat)` throws a `SyntaxError` (an invalid pattern),
and otherwise the `test` function of the compiled expression. -/
def RegexEngine : Type :=
  String → Option (String → Bool)

/-- The conjunction of the predicates of every tag whose text occurs in the
clause (tag detection is raw substring containment on the clause). -/
def tagsOk (loading : List String) (searchTerm : String) (r : Row) : Bool :=
  let inc := fun (tag : String) => jsIncludes searchTerm tag
  (!inc "#modified" || decide (r.targetValue ≠ r.originalTargetValue))
  && (!inc "#done"
      || (decide (r.sourceValue ≠ r.originalTargetValue)
          && decide (r.targetValue = r.originalTargetValue)))
  && (!inc "#undone" || decide (r.sourceValue = r.targetValue) || decide (r.targetValue = ""))
  && (!inc "#doing" || decide (r.sourceValue = r.targetValue) || decide (r.targetValue = "")
      || decide (r.targetValue ≠ r.originalTargetValue))
  && (!inc "#ai" || decide (r.aiSuggestion ≠ ""))
  && (!inc "#noai" || decide (r.aiSuggestion = "") || !loading.contains r.key)
  && (!inc "#empty" || decide (r.targetValue = ""))
  && (!inc "#inarray" || inarrayTest r.key)
  && (!inc "#aifetching" || loading.contains r.key)

/-- Evaluation of one OR-clause of `filteredRows` against one row
(`searchTerm` is the already-lowercased clause).  The text predicate filters
`key`/`sourceValue`/`targetValue` by substring containment, or — when the
clause contains `#reg` — by regular-expression search, where an invalid
pattern makes `new RegExp` throw out of the evaluator (`Except.error`);
either way the tag conjunction `tagsOk` is ANDed on. -/
def evalClause (re : RegexEngine) (loading : List String) (searchTerm : String) (r : Row) :
    Except Unit Bool :=
  let q := jsTrim (beforeHash (jsToLower searchTerm))
  let inc := fun (tag : String) => jsIncludes searchTerm tag
  if !inc "#reg" then
    .ok ((jsIncludes (jsToLower r.key) q
          || (!inc "#key"
              && (jsIncludes (jsToLower r.sourceValue) q
                  || jsIncludes (jsToLower r.targetValue) q)))
      && tagsOk loading searchTerm r)
  else
    match re q with
    | none => .error ()
    | some test =>
        .ok ((test (jsToLower r.key)
              || (!inc "#key"
                  && (test (jsToLower r.sourceValue) || test (jsToLower r.targetValue))))
          && tagsOk loading searchTerm r)

/-- `clauses.some(...)`: first matching clause wins; an exception thrown by
an earlier clause propagates before later clauses are evaluated. -/
def evalClauses (re : RegexEngine) (loading : List String) (r : Row) :
    List String → Except Unit Bool
  | [] => .ok false
  | t :: ts =>
      match evalClause re loading t r with
      | .error e => .error e
      | .ok b => if b then .ok true else evalClauses re loading r ts

/-- Evaluation of a raw query against one row: the query is lowercased and
split on `||` into clauses. -/
def evalQuery (re : RegexEngine) (loading : List String) (raw : String) (r : Row) :
    Except Unit Bool :=
  evalClauses re loading r (splitOr (jsToLower raw))

/-- `filteredRows`: filter the table by the query; an exception thrown while
evaluating any row escapes the whole filter. -/
def filteredRows (re : RegexEngine) (loading : List String) (raw : String) :
    List Row → Except Unit (List Row)
  | [] => .ok []
  | r :: rs =>
      match evalQuery re loading raw r with
      | .error e => .error e
      | .ok b =>
          match filteredRows re loading raw rs with
          | .error e => .error e
          | .ok rest => .ok (if b then r :: rest else rest)

/-- Outcome of one `ai.models.generateContent` call inside
`getTranslationSuggestions`: the request rejected; or it resolved with text
that parses into a JSON object (a string-to-string mapping); or with text
that parses as JSON but to the value `null` (nothing prevents the model
from answering the literal `null`, and the non-gemini branch parses free
text with the fences stripped); or with text that is not JSON at all. -/
inductive GenResult where
  | thrown
  | parsed (m : List (String × String))
  | parsedNull
  | unparsable

/-- `getTranslationSuggestions`: the request failure and the parse failure
are caught inside the function (`console.error` + `return {}`), so the call
always resolves and never rejects — but it resolves with whatever
`JSON.parse` produced, so response text `null` parses successfully and the
call resolves with `null` (`none` here) rather than with a mapping. -/
def getTranslationSuggestions : GenResult → Option (List (String × String))
  | .thrown => some []
  | .parsed m => some m
  | .parsedNull => none
  | .unparsable => some []

/-- `newRows[newRows.findIndex(r => r.key === key)].aiSuggestion = v`: write
the suggestion on the first row with the key, if any. -/
def applySuggestion : List Row → String → String → List Row
  | [], _, _ => []
  | r :: rs, k, v =>
      if r.key = k then { r with aiSuggestion := v } :: rs
      else r :: applySuggestion rs k v

/-- Chunking loop with explicit fuel (structural recursion; fuel equal to
the list length is always enough, since every step drops at least one
element). -/
def chunkifyAux (n : Nat) : Nat → List Row → List (List Row)
  | _, [] => []
  | 0, x :: xs => [x :: xs]
  | fuel + 1, x :: xs => (x :: xs).take (max n 1) :: chunkifyAux n fuel ((x :: xs).drop (max n 1))

/-- `updatedRows.slice(i, i + chunkSize)` over the whole loop: partition a
list into chunks of `max n 1` elements (the call site never passes 0). -/
def chunkify (n : Nat) (xs : List Row) : List (List Row) :=
  chunkifyAux n xs.length xs

/-- The candidate rows of a `handleSuggestAll` run: the filtered subset,
minus rows already carrying a suggestion (unless `replaceExisting`), minus
rows already marked in-flight. -/
def candidatesOf (filtered : List Row) (loading : List String) (replaceExisting : Bool) :
    List Row :=
  filtered.filter (fun r => (replaceExisting || r.aiSuggestion = "") && !loading.contains r.key)

/-- Result of the chunk loop: it ran to completion with final rows, local
loading record and call count, or it was aborted mid-loop by the TypeError
`Object.keys(suggestions)` raises when the resolved value is `null`.  The
aborted case still carries the rows: the row objects in `newRows` are
shared with `activeProject.rows` (a shallow array copy), so the
`aiSuggestion` writes of earlier chunks are already applied in place. -/
inductive ChunkLoop where
  | done (rows : List Row) (nl : List String) (calls : Nat)
  | aborted (rows : List Row) (calls : Nat)

/-- The chunk loop of `handleSuggestAll`: invoke the provider once per
chunk (the outcome of call number `c` is `provider c`), clear the chunk's
keys in the local loading record, and merge returned suggestions into the
rows.  A call resolving with `null` makes `Object.keys(suggestions)` throw
and aborts the loop (the chunk's local loading writes precede the throw in
the source, but they are discarded with the rest of the local record, which
is never published on this path). -/
def processChunks (provider : Nat → GenResult) :
    List (List Row) → List Row → List String → Nat → ChunkLoop
  | [], rows, nl, c => .done rows nl c
  | ch :: rest, rows, nl, c =>
      match getTranslationSuggestions (provider c) with
      | none => .aborted rows (c + 1)
      | some sugg =>
          let nl' := nl.filter (fun k => !ch.any (fun r => r.key = k))
          let rows' := sugg.foldl (fun acc kv => applySuggestion acc kv.1 kv.2) rows
          processChunks provider rest rows' nl' (c + 1)

/-- Result of a `handleSuggestAll` run: the final row table, the keys
marked in-flight in the published `rowAiLoading` record once the call has
terminated, how many provider calls were issued, and whether the run ended
in the `catch` branch (alert) instead of completing the loop. -/
structure SuggestOutcome where
  rows : List Row
  loading : List String
  calls : Nat
  aborted : Bool
deriving Repr

/-- Publish the run's outcome: on completion the final
`setRowAiLoading({...rowAiLoading, ...newRowLoading})` (line 242) installs
the loop's record; on an abort that statement is skipped (control jumps to
`catch`), so the published record stays the one installed before the first
request (line 217) — `nl0`, every candidate still marked in-flight. -/
def suggestOutcomeOf (nl0 : List String) : ChunkLoop → SuggestOutcome
  | .done rows nl calls => ⟨rows, nl, calls, false⟩
  | .aborted rows calls => ⟨rows, nl0, calls, true⟩

/-- `handleSuggestAll` (lines 200–251): select candidates, mark them all
in-flight before the first request, drive the provider chunk by chunk, and
publish the outcome.  The provider wrapper never rejects, but a resolved
`null` throws inside the loop at `Object.keys`. -/
def handleSuggestAll (rows filtered : List Row) (loading : List String)
    (replaceExisting : Bool) (chunkSize : Nat) (provider : Nat → GenResult) :
    SuggestOutcome :=
  let cs := if chunkSize = 0 then 10 else chunkSize
  let candidates := candidatesOf filtered loading replaceExisting
  let nl0 := loading ++ candidates.map (fun r => r.key)
  let chunks := chunkify cs candidates
  suggestOutcomeOf nl0 (processChunks provider chunks rows nl0 0)

mutual
theorem flattenRaw_eq_leaves (v : JsVal) (pre : List Seg) :
    flattenRaw v pre = (leaves v).map (fun sp => (pathKey (pre ++ sp.1), sp.2)) := by
  cases v with
  | prim p => simp [flattenRaw, leaves]
  | obj fs => simpa [flattenRaw, leaves] using flattenFields_eq_leaves fs pre
  | arr es => simpa [flattenRaw, leaves] using flattenElems_eq_leaves es 0 pre

theorem flattenFields_eq_leaves (fs : List (String × JsVal)) (pre : List Seg) :
    flattenFields fs pre = (leavesFields fs).map (fun sp => (pathKey (pre ++ sp.1), sp.2)) := by
  cases fs with
  | nil => simp [flattenFields, leavesFields]
  | cons kv fs =>
    obtain ⟨k, v⟩ := kv
    have h1 := flattenRaw_eq_leaves v (pre ++ [Seg.okey k])
    have h2 := flattenFields_eq_leaves fs pre
    simp [flattenFields, leavesFields, h1, h2, Function.comp]

theorem flattenElems_eq_leaves (es : List JsVal) (i : Nat) (pre : List Seg) :
    flattenElems es i pre = (leavesElems es i).map (fun sp => (pathKey (pre ++ sp.1), sp.2)) := by
  cases es with
  | nil => simp [flattenElems, leavesElems]
  | cons v es =>
    have h1 := flattenRaw_eq_leaves v (pre ++ [Seg.aidx i])
    have h2 := flattenElems_eq_leaves es (i + 1) pre
    simp [flattenElems, leavesElems, h1, h2, Function.comp]
end

theorem jsOr_empty (a : String) : jsOr a "" = a := by
  unfold jsOr
  split <;> simp_all

theorem rowFor_key (R : List Row) (S T : List (String × Prim)) (k : String) :
    (rowFor R S T k).key = k := rfl

theorem reconcile_filter_key (R : List Row) (S T : List (String × Prim)) (k : String) :
    (reconcile R S T).filter (fun r => r.key = k)
      = ((stringKeys S).filter (fun x => x = k)).map (rowFor R S T) := by
  unfold reconcile
  rw [List.filter_map]
  rfl

theorem head_filter_self (l : List String) (k : String) (h : k ∈ l) :
    (l.filter (fun x => x = k)).head? = some k := by
  induction l with
  | nil => cases h
  | cons a l ih =>
    by_cases ha : a = k
    · subst ha
      simp [List.filter_cons]
    · have hk : k ∈ l := by
        cases h with
        | head => exact absurd rfl ha
        | tail _ h => exact h
      simpa [List.filter_cons, ha] using ih hk

theorem reconcile_head (R : List Row) (S T : List (String × Prim)) (k : String)
    (hk : k ∈ stringKeys S) :
    ((reconcile R S T).filter (fun r => r.key = k)).head? = some (rowFor R S T k) := by
  rw [reconcile_filter_key, List.head?_map, head_filter_self _ _ hk]
  rfl

/-- C9: reconciliation is idempotent: re-running `handleFetchFiles`'s row
rebuild with the same flattened source and target over its own output
returns the same table (same keys, order, and all row fields). -/
theorem reconcile_idempotent (R : List Row) (S T : List (String × Prim)) :
    reconcile (reconcile R S T) S T = reconcile R S T := by
  show (stringKeys S).map (rowFor (reconcile R S T) S T) = (stringKeys S).map (rowFor R S T)
  apply List.map_congr_left
  intro k hk
  have hhead := reconcile_head R S T k hk
  have hR : rowFor R S T k
      = ⟨k, srcAt S k, (rowFor R S T k).targetValue, origAt S T k,
          (rowFor R S T k).aiSuggestion⟩ := rfl
  show rowFor (reconcile R S T) S T k = rowFor R S T k
  conv_lhs => unfold rowFor
  rw [hhead, hR]
  simp only [Row.mk.injEq, true_and, and_true]
  constructor
  · by_cases hdv : (rowFor R S T k).targetValue = origAt S T k
    · rw [if_pos hdv]
      exact hdv.symm
    · rw [if_neg hdv]
      exact jsOr_empty _
  · exact jsOr_empty _

/-- C10: after a successful push every row's `originalTargetValue` is
rebased onto its current `targetValue` while key, source, target and
suggestion are untouched, so the modified count right after a successful
push is zero; a failed push leaves the table unchanged. -/
theorem push_rebases_originals (rows : List Row) :
    (handlePushToGitHub rows .success).map (fun r => r.originalTargetValue)
        = rows.map (fun r => r.targetValue)
    ∧ (handlePushToGitHub rows .success).map
          (fun r => (r.key, r.sourceValue, r.targetValue, r.aiSuggestion))
        = rows.map (fun r => (r.key, r.sourceValue, r.targetValue, r.aiSuggestion))
    ∧ modifiedCount (handlePushToGitHub rows .success) = 0
    ∧ handlePushToGitHub rows .failure = rows := by
  refine ⟨?_, ?_, ?_, rfl⟩
  · simp [handlePushToGitHub, applyPushSuccess]
  · simp [handlePushToGitHub, applyPushSuccess]
  · simp [handlePushToGitHub, applyPushSuccess, modifiedCount, List.filter_map]

theorem rowFor_target (R : List Row) (S T : List (String × Prim)) (k : String) :
    (rowFor R S T k).targetValue
      = (match (R.filter (fun r => r.key = k)).head? with
        | none => origAt S T k
        | some r =>
            if r.targetValue = r.originalTargetValue then origAt S T k
            else jsOr r.targetValue "") := rfl

theorem rowFor_orig (R : List Row) (S T : List (String × Prim)) (k : String) :
    (rowFor R S T k).originalTargetValue = origAt S T k := rfl

/-- C2: a reconcile pass preserves a diverged row's `targetValue` verbatim
when the fetched source still carries its key as a string, while keys whose
existing row was not diverged (or that had no row) adopt the freshly
computed `originalTargetValue` as their `targetValue`. -/
theorem reconcile_edit_preservation (R : List Row) (S T : List (String × Prim))
    (k : String) (r0 : Row)
    (hfirst : (R.filter (fun r => r.key = k)).head? = some r0)
    (hdiv : r0.targetValue ≠ r0.originalTargetValue)
    (hsrc : k ∈ stringKeys S) :
    (∃ row, row ∈ reconcile R S T ∧ row.key = k ∧ row.targetValue = r0.targetValue)
    ∧ ∀ k' : String,
        (∀ r1 : Row, (R.filter (fun r => r.key = k')).head? = some r1 →
            r1.targetValue = r1.originalTargetValue) →
        ∀ row ∈ reconcile R S T, row.key = k' →
          row.targetValue = row.originalTargetValue := by
  constructor
  · refine ⟨rowFor R S T k, List.mem_map_of_mem _ hsrc, rfl, ?_⟩
    rw [rowFor_target, hfirst]
    simp only
    rw [if_neg hdiv]
    exact jsOr_empty _
  · intro k' hund row hrow hkey
    obtain ⟨k2, hk2, rfl⟩ := List.mem_map.mp hrow
    have hk2' : k2 = k' := hkey
    subst hk2'
    rw [rowFor_target, rowFor_orig]
    cases hh : (R.filter (fun r => r.key = k2)).head? with
    | none => rfl
    | some r1 =>
      simp only
      rw [if_pos (hund r1 hh)]

def rowC2 : Row := ⟨"k1", "s1", "edited", "orig", ""⟩

def srcC2 : List (String × Prim) := [("k1", Prim.str "src")]

def tgtC2 : List (String × Prim) := [("k1", Prim.str "tgt")]

/-- Witness for C2 at a concrete diverged row. -/
theorem reconcile_edit_preservation_witness :
    ∃ row, row ∈ reconcile [rowC2] srcC2 tgtC2 ∧ row.key = "k1"
      ∧ row.targetValue = "edited" :=
  (reconcile_edit_preservation [rowC2] srcC2 tgtC2 "k1" rowC2
    (by decide) (by decide) (by decide)).1

theorem processChunks_done (provider : Nat → GenResult)
    (hprov : ∀ i, getTranslationSuggestions (provider i) ≠ none)
    (chunks : List (List Row)) (rows : List Row) (nl : List String) (c : Nat) :
    ∃ rows2, processChunks provider chunks rows nl c
      = .done rows2
          (nl.filter (fun k => chunks.all (fun ch => !ch.any (fun r => r.key = k))))
          (c + chunks.length) := by
  induction chunks generalizing rows nl c with
  | nil => exact ⟨rows, by simp [processChunks]⟩
  | cons ch rest ih =>
    cases hg : getTranslationSuggestions (provider c) with
    | none => exact absurd hg (hprov c)
    | some sugg =>
      obtain ⟨rows2, hr⟩ := ih
        (sugg.foldl (fun acc kv => applySuggestion acc kv.1 kv.2) rows)
        (nl.filter (fun k => !ch.any (fun r => r.key = k))) (c + 1)
      refine ⟨rows2, ?_⟩
      rw [processChunks, hg]
      simp only
      rw [hr]
      congr 1
      · rw [List.filter_filter]
        apply List.filter_congr
        intro k _
        simp [Bool.and_comm]
      · simp
        omega

theorem chunkifyAux_flatten (n fuel : Nat) (xs : List Row) :
    (chunkifyAux n fuel xs).flatten = xs := by
  induction fuel generalizing xs with
  | zero => cases xs <;> simp [chunkifyAux]
  | succ fuel ih =>
    cases xs with
    | nil => simp [chunkifyAux]
    | cons x xs => simp [chunkifyAux, ih]

def rowC5 : Row := ⟨"k5", "s5", "", "", ""⟩

/-- The provider resolves every call with text that parses to JSON null. -/
def providerC5 : Nat → GenResult := fun _ => .parsedNull

/-- C5 counterexample: one candidate row, and the provider's response text
parses to JSON `null`.  `getTranslationSuggestions` resolves with `null`,
`Object.keys(null)` throws, the catch branch runs and the final
`setRowAiLoading` publish is skipped — the run terminates (the exception is
caught, so SuggestAll resolves) with the candidate key still marked
in-flight, never to be cleared. -/
theorem inflight_stuck_on_null_response :
    (handleSuggestAll [rowC5] [rowC5] [] false 1 providerC5).aborted = true
    ∧ (handleSuggestAll [rowC5] [rowC5] [] false 1 providerC5).loading = ["k5"] := by
  decide

/-- C5 amended: provided no provider response resolves to JSON `null`
(failing, partial, empty, or full mapping responses per chunk are all
fine), a `handleSuggestAll` run that starts with an empty in-flight record
terminates with no row key marked in-flight; a `null` response instead
aborts the loop at `Object.keys` and leaves every candidate key of the run
marked in-flight, as the counterexample shows. -/
theorem suggestAll_clears_inflight (rows filtered : List Row) (b : Bool) (n : Nat)
    (provider : Nat → GenResult)
    (hprov : ∀ i, getTranslationSuggestions (provider i) ≠ none) :
    (handleSuggestAll rows filtered [] b n provider).loading = [] := by
  obtain ⟨rows2, hr⟩ := processChunks_done provider hprov
    (chunkify (if n = 0 then 10 else n) (candidatesOf filtered [] b)) rows
    ([] ++ (candidatesOf filtered [] b).map (fun r => r.key)) 0
  show (suggestOutcomeOf ([] ++ (candidatesOf filtered [] b).map (fun r => r.key))
      (processChunks provider
        (chunkify (if n = 0 then 10 else n) (candidatesOf filtered [] b)) rows
        ([] ++ (candidatesOf filtered [] b).map (fun r => r.key)) 0)).loading = []
  rw [hr]
  show (([] : List String) ++ (candidatesOf filtered [] b).map (fun r => r.key)).filter
      (fun k => (chunkify (if n = 0 then 10 else n) (candidatesOf filtered [] b)).all
        (fun ch => !ch.any (fun r => r.key = k))) = []
  rw [List.filter_eq_nil_iff]
  intro k hk
  simp only [List.nil_append, List.mem_map] at hk
  obtain ⟨r, hr2, rfl⟩ := hk
  have hrj : r ∈ (chunkify (if n = 0 then 10 else n) (candidatesOf filtered [] b)).flatten := by
    rw [chunkify, chunkifyAux_flatten]
    exact hr2
  obtain ⟨ch, hch, hrch⟩ := List.mem_flatten.mp hrj
  intro hall
  rw [List.all_eq_true] at hall
  have h2 := hall ch hch
  rw [Bool.not_eq_true', List.any_eq_false] at h2
  have h3 := h2 r hrch
  simp at h3

def rowC5w : Row := ⟨"kw", "sw", "", "", ""⟩

/-- Every call fails and is absorbed into the empty mapping. -/
def providerThrow : Nat → GenResult := fun _ => .thrown

theorem suggestAll_clears_inflight_witness :
    (handleSuggestAll [rowC5w] [rowC5w] [] false 1 providerThrow).loading = [] :=
  suggestAll_clears_inflight [rowC5w] [rowC5w] false 1 providerThrow
    (fun i => by simp [providerThrow, getTranslationSuggestions])

def rowC4a : Row := ⟨"a", "sa", "", "", ""⟩

def rowC4b : Row := ⟨"b", "sb", "", "", ""⟩

/-- The provider rejects on the first chunk and answers the second. -/
def providerC4 : Nat → GenResult :=
  fun c => if c = 0 then .thrown else .parsed [("b", "sb-sugg")]

/-- C4 counterexample: with chunk size 1 and two candidate rows, the
provider call for chunk 0 fails, yet a second provider call is still issued
and its suggestion is applied — the remaining chunk is not aborted, and no
error reaches the caller (the wrapper absorbed the failure). -/
theorem suggestAll_no_abort :
    (handleSuggestAll [rowC4a, rowC4b] [rowC4a, rowC4b] [] false 1 providerC4).calls = 2
    ∧ (handleSuggestAll [rowC4a, rowC4b] [rowC4a, rowC4b] [] false 1 providerC4).rows.map
        (fun r => r.aiSuggestion) = ["", "sb-sugg"] := by decide

/-- C4 amended: a provider failure is absorbed inside
`getTranslationSuggestions` (which catches and resolves with the empty
mapping instead of rejecting), so a failed call never aborts the remaining
chunks: provided no response resolves to JSON `null` (the unrelated abort
path of C5), `handleSuggestAll` issues exactly one provider call per chunk
of the candidate list. -/
theorem suggestAll_processes_all_chunks (rows filtered : List Row) (loading : List String)
    (b : Bool) (n : Nat) (provider : Nat → GenResult)
    (hprov : ∀ i, getTranslationSuggestions (provider i) ≠ none) :
    (handleSuggestAll rows filtered loading b n provider).calls
      = (chunkify (if n = 0 then 10 else n) (candidatesOf filtered loading b)).length
    ∧ getTranslationSuggestions GenResult.thrown = some [] := by
  constructor
  · obtain ⟨rows2, hr⟩ := processChunks_done provider hprov
      (chunkify (if n = 0 then 10 else n) (candidatesOf filtered loading b)) rows
      (loading ++ (candidatesOf filtered loading b).map (fun r => r.key)) 0
    show (suggestOutcomeOf (loading ++ (candidatesOf filtered loading b).map (fun r => r.key))
        (processChunks provider
          (chunkify (if n = 0 then 10 else n) (candidatesOf filtered loading b)) rows
          (loading ++ (candidatesOf filtered loading b).map (fun r => r.key)) 0)).calls = _
    rw [hr]
    show 0 + (chunkify (if n = 0 then 10 else n) (candidatesOf filtered loading b)).length = _
    omega
  · rfl

theorem suggestAll_processes_all_chunks_witness :
    (handleSuggestAll [rowC4a, rowC4b] [rowC4a, rowC4b] [] false 1 providerThrow).calls
      = (chunkify (if 1 = 0 then 10 else 1) (candidatesOf [rowC4a, rowC4b] [] false)).length
    ∧ getTranslationSuggestions GenResult.thrown = some [] :=
  suggestAll_processes_all_chunks [rowC4a, rowC4b] [rowC4a, rowC4b] [] false 1 providerThrow
    (fun i => by simp [providerThrow, getTranslationSuggestions])

theorem jsIncludes_empty (s : String) : jsIncludes s "" = true := by
  unfold jsIncludes
  exact decide_eq_true List.nil_infix

theorem evalClause_invalid_reg (re : RegexEngine) (loading : List String) (r : Row)
    (hre : re "(" = none) :
    evalClause re loading "(#reg" r = .error () := by
  unfold evalClause
  have h1 : jsIncludes "(#reg" "#reg" = true := by decide
  have h2 : jsTrim (beforeHash (jsToLower "(#reg")) = "(" := by decide
  simp only [h1, h2, Bool.not_true, Bool.false_eq_true, if_false, hre]

/-- C3 (code-bug evidence): with any regex engine in which the pattern `(`
fails to compile, evaluating the query `(#reg` over a non-empty row table
propagates the exception out of the evaluator instead of treating the
clause as failed — `filteredRows` returns an error, filtering no row. -/
theorem invalid_regex_raises (re : RegexEngine) (loading : List String)
    (r : Row) (rows : List Row) (hre : re "(" = none) :
    filteredRows re loading "(#reg" (r :: rows) = .error () := by
  have hq : evalQuery re loading "(#reg" r = .error () := by
    unfold evalQuery
    have hsplit : splitOr (jsToLower "(#reg") = ["(#reg"] := by decide
    rw [hsplit]
    unfold evalClauses
    rw [evalClause_invalid_reg re loading r hre]
  unfold filteredRows
  rw [hq]

def reC3 : RegexEngine := fun _ => none

def rowC3 : Row := ⟨"k", "s", "t", "t", ""⟩

/-- Witness for C3 at a concrete engine and row. -/
theorem invalid_regex_raises_witness :
    filteredRows reC3 [] "(#reg" [rowC3] = .error () :=
  invalid_regex_raises reC3 [] rowC3 [] rfl

def reC8 : RegexEngine := fun _ => none

def rowC8 : Row := ⟨"k", "s", "t", "t", ""⟩

/-- C8 counterexample: `rowC8` is marked in-flight and carries no
suggestion; the clause `#aifetching`'s text predicate holds trivially and
its own tag predicate (in-flight) holds, yet the query does not match the
row, because the substring `#ai` inside `#aifetching` also fires the
non-empty-suggestion predicate. -/
theorem aifetching_counterexample :
    rowC8.aiSuggestion = "" ∧ ["k"].contains rowC8.key = true
    ∧ evalQuery reC8 ["k"] "#aifetching" rowC8 = .ok false := by decide

/-- C8 amended: because tag detection is raw substring containment and
`#ai` occurs inside `#aifetching`, the query `#aifetching` matches a row
iff the row's suggestion is non-empty AND the row is marked in-flight; no
other tag predicate fires and the text predicate is trivially true. -/
theorem aifetching_requires_ai (re : RegexEngine) (loading : List String) (r : Row) :
    evalQuery re loading "#aifetching" r
      = .ok (decide (r.aiSuggestion ≠ "") && loading.contains r.key) := by
  have hcl : evalClause re loading "#aifetching" r
      = .ok (decide (r.aiSuggestion ≠ "") && loading.contains r.key) := by
    unfold evalClause tagsOk
    have hreg : jsIncludes "#aifetching" "#reg" = false := by decide
    have hkey : jsIncludes "#aifetching" "#key" = false := by decide
    have hmod : jsIncludes "#aifetching" "#modified" = false := by decide
    have hdone : jsIncludes "#aifetching" "#done" = false := by decide
    have hundone : jsIncludes "#aifetching" "#undone" = false := by decide
    have hdoing : jsIncludes "#aifetching" "#doing" = false := by decide
    have hai : jsIncludes "#aifetching" "#ai" = true := by decide
    have hnoai : jsIncludes "#aifetching" "#noai" = false := by decide
    have hempty : jsIncludes "#aifetching" "#empty" = false := by decide
    have hinarr : jsIncludes "#aifetching" "#inarray" = false := by decide
    have hfetch : jsIncludes "#aifetching" "#aifetching" = true := by decide
    have hq : jsTrim (beforeHash (jsToLower "#aifetching")) = "" := by decide
    simp only [hreg, hkey, hmod, hdone, hundone, hdoing, hai, hnoai, hempty, hinarr,
      hfetch, hq, jsIncludes_empty, Bool.not_false, Bool.not_true, Bool.true_or,
      Bool.false_or, Bool.true_and, Bool.and_true, if_true, Bool.true_eq_false,
      Bool.false_eq_true, if_false]
  unfold evalQuery
  have hsplit : splitOr (jsToLower "#aifetching") = ["#aifetching"] := by decide
  rw [hsplit]
  unfold evalClauses
  rw [hcl]
  cases hb : decide (r.aiSuggestion ≠ "") && loading.contains r.key <;>
    simp [evalClauses]

def dC7 : JsVal :=
  .obj [("auth", .obj [("errors", .arr [.obj [("message", .prim (.str "m"))]])])]

/-- C7 counterexample: the leaf at object key `auth`, key `errors`, index 0,
key `message` is not emitted under the literal dotted path
`auth.errors.0.message`; it is emitted under the rendered path in which the
object-key segments are wrapped in apostrophes. -/
theorem flatten_key_not_literal :
    (flattenObject dC7).map Prod.fst ≠ ["auth.errors.0.message"]
    ∧ (flattenObject dC7).map Prod.fst
        = [pathKey [Seg.okey "auth", Seg.okey "errors", Seg.aidx 0, Seg.okey "message"]] := by
  decide

/-- C7 amended: every scalar leaf of a document is emitted under the dotted
path whose array-index segments are plain numerals and whose object-key
segments are wrapped in apostrophe characters (with `][` inside a key
collapsed to `.` and `"` inside a key turned into an apostrophe), exactly
the rendering `pathKey` of its segment address. -/
theorem flatten_emits_rendered_paths (d : JsVal) :
    flattenRaw d [] = (leaves d).map (fun sp => (pathKey sp.1, sp.2)) := by
  simpa using flattenRaw_eq_leaves d []

theorem jsSet_of_not_mem (m : List (String × Prim)) (k : String) (v : Prim)
    (h : m.any (fun p => p.1 = k) = false) :
    jsSet m k v = m ++ [(k, v)] := by
  unfold jsSet
  rw [h]
  simp

theorem foldl_jsSet_nodup (l m : List (String × Prim))
    (h : ((m ++ l).map Prod.fst).Nodup) :
    l.foldl (fun m kv => jsSet m kv.1 kv.2) m = m ++ l := by
  induction l generalizing m with
  | nil => simp
  | cons kv l ih =>
    have hnotin : kv.1 ∉ m.map Prod.fst := by
      rw [List.map_append, List.nodup_append] at h
      exact fun hin => (h.2.2 hin) (by simp)
    have hany : m.any (fun p => p.1 = kv.1) = false := by
      rw [List.any_eq_false]
      intro p hp
      simp only [decide_eq_true_eq]
      intro hpk
      exact hnotin (hpk ▸ List.mem_map_of_mem Prod.fst hp)
    have hstep : jsSet m kv.1 kv.2 = m ++ [kv] := jsSet_of_not_mem m kv.1 kv.2 hany
    show List.foldl _ (jsSet m kv.1 kv.2) l = m ++ kv :: l
    rw [hstep]
    have h' : (((m ++ [kv]) ++ l).map Prod.fst).Nodup := by
      rw [List.append_assoc, List.singleton_append]
      exact h
    rw [ih (m ++ [kv]) h', List.append_assoc, List.singleton_append]

theorem jsKeys_insertion (m : List (String × Prim))
    (h : ∀ k ∈ m.map Prod.fst, isIntIndex k = false) :
    jsKeys m = m.map Prod.fst := by
  unfold jsKeys
  have h1 : (m.map Prod.fst).filter (fun k => isIntIndex k) = [] := by
    rw [List.filter_eq_nil_iff]
    intro k hk
    rw [h k hk]
    simp
  have h2 : (m.map Prod.fst).filter (fun k => !isIntIndex k) = m.map Prod.fst := by
    rw [List.filter_eq_self]
    intro k hk
    rw [h k hk]
    rfl
  rw [h1, h2]
  rfl

theorem jsGet_cons_self (kv : String × Prim) (m : List (String × Prim)) :
    jsGet (kv :: m) kv.1 = some kv.2 := by
  unfold jsGet
  rw [List.find?_cons_of_pos _ (by simp)]
  rfl

theorem jsGet_cons_ne (kv : String × Prim) (m : List (String × Prim)) (k : String)
    (h : k ≠ kv.1) :
    jsGet (kv :: m) k = jsGet m k := by
  unfold jsGet
  rw [List.find?_cons_of_neg _ (by simpa using fun he => h he.symm)]

theorem filter_isStr_keys (S : List (String × Prim)) (h : (S.map Prod.fst).Nodup) :
    (S.map Prod.fst).filter
        (fun k => match jsGet S k with | some v => v.isStr | none => false)
      = (S.filter (fun kv => kv.2.isStr)).map Prod.fst := by
  induction S with
  | nil => rfl
  | cons kv S ih =>
    have hnotin : kv.1 ∉ S.map Prod.fst := (List.nodup_cons.mp (by simpa using h)).1
    have hnd : (S.map Prod.fst).Nodup := (List.nodup_cons.mp (by simpa using h)).2
    have htail : (S.map Prod.fst).filter
          (fun k => match jsGet (kv :: S) k with | some v => v.isStr | none => false)
        = (S.map Prod.fst).filter
          (fun k => match jsGet S k with | some v => v.isStr | none => false) := by
      apply List.filter_congr
      intro k hk
      have hne : k ≠ kv.1 := fun he => hnotin (he ▸ hk)
      rw [jsGet_cons_ne kv S k hne]
    cases hstr : kv.2.isStr with
    | true =>
      simp only [List.map_cons, List.filter_cons, jsGet_cons_self, hstr, htail, ih hnd]
      rfl
    | false =>
      simp only [List.map_cons, List.filter_cons, jsGet_cons_self, hstr, htail, ih hnd]
      rfl

/-- C6 counterexample: a source document with the two sibling keys `a"` and
`a'` has two string-valued leaves, but both render to the same flattened
key (the pipeline turns `"` into an apostrophe), so the rebuilt table has
exactly one row — not one row per string-valued leaf path. -/
theorem reconcile_collision_counterexample :
    (leaves (JsVal.obj
        [(("a" ++ ⟨['"']⟩ : String), .prim (.str "v1")),
         (("a" ++ ⟨['\'']⟩ : String), .prim (.str "v2"))])).length = 2
    ∧ (reconcile []
        (flattenObject (JsVal.obj
          [(("a" ++ ⟨['"']⟩ : String), .prim (.str "v1")),
           (("a" ++ ⟨['\'']⟩ : String), .prim (.str "v2"))])) []).length = 1 := by
  decide

/-- C6 amended: provided the flattened source assigns pairwise-distinct
keys to the document's leaves and none of those keys is a canonical
array-index string (so `Object.keys` preserves insertion order), the
rebuilt table has exactly the string-valued leaf keys of the fetched
source, in traversal order, and every row's key is a string-valued key of
the fetched source — keys of the prior table absent from the source occur
in no row. -/
theorem reconcile_rebuilds_from_source (R : List Row) (T : List (String × Prim)) (d : JsVal)
    (hnd : ((flattenRaw d []).map Prod.fst).Nodup)
    (hint : ∀ k ∈ (flattenRaw d []).map Prod.fst, isIntIndex k = false) :
    (reconcile R (flattenObject d) T).map (fun r => r.key)
        = ((flattenRaw d []).filter (fun kv => kv.2.isStr)).map Prod.fst
    ∧ ∀ row ∈ reconcile R (flattenObject d) T,
        ∃ kv, kv ∈ flattenRaw d [] ∧ row.key = kv.1 ∧ kv.2.isStr = true := by
  have hflat : flattenObject d = flattenRaw d [] := by
    show (flattenRaw d []).foldl (fun m kv => jsSet m kv.1 kv.2) [] = _
    simpa using foldl_jsSet_nodup (flattenRaw d []) [] (by simpa using hnd)
  have hkeys : stringKeys (flattenObject d)
      = ((flattenRaw d []).filter (fun kv => kv.2.isStr)).map Prod.fst := by
    rw [hflat]
    show (jsKeys (flattenRaw d [])).filter _ = _
    rw [jsKeys_insertion _ hint]
    exact filter_isStr_keys _ hnd
  have hmapkeys : (reconcile R (flattenObject d) T).map (fun r => r.key)
      = stringKeys (flattenObject d) := by
    have hgen : ∀ ks : List String,
        ks.map (fun k => (rowFor R (flattenObject d) T k).key) = ks := by
      intro ks
      induction ks with
      | nil => rfl
      | cons a l ih => simp [rowFor_key, ih]
    show ((stringKeys (flattenObject d)).map (rowFor R (flattenObject d) T)).map
        (fun r => r.key) = stringKeys (flattenObject d)
    rw [List.map_map]
    exact hgen _
  constructor
  · rw [hmapkeys, hkeys]
  · intro row hrow
    obtain ⟨k, hk, rfl⟩ := List.mem_map.mp hrow
    rw [hkeys] at hk
    obtain ⟨kv, hkv, hkeq⟩ := List.mem_map.mp hk
    exact ⟨kv, (List.mem_filter.mp hkv).1, hkeq.symm ▸ rfl, (List.mem_filter.mp hkv).2⟩

def dC6w : JsVal :=
  .obj [("a", .obj [("b", .prim (.str "x"))]), ("n", .prim (.num 2)), ("c", .prim (.str "y"))]

def rowsC6w : List Row := [⟨"gone", "s", "t", "o", ""⟩]

def tgtC6w : List (String × Prim) := [(pathKey [Seg.okey "c"], Prim.str "why")]

/-- Witness for C6 at a concrete prior table and fetched pair. -/
theorem reconcile_rebuilds_from_source_witness :
    (reconcile rowsC6w (flattenObject dC6w) tgtC6w).map (fun r => r.key)
        = ((flattenRaw dC6w []).filter (fun kv => kv.2.isStr)).map Prod.fst
    ∧ ∀ row ∈ reconcile rowsC6w (flattenObject dC6w) tgtC6w,
        ∃ kv, kv ∈ flattenRaw dC6w [] ∧ row.key = kv.1 ∧ kv.2.isStr = true :=
  reconcile_rebuilds_from_source rowsC6w tgtC6w dC6w (by decide) (by decide)

/-- An object key that survives the flatten/unflatten pipeline untouched:
no `.` (the split separator), no apostrophe (stripped by `unflattenObject`
and ambiguous with the segment quoting), no `"` (rewritten to an apostrophe
by the pipeline) and no `[` (so no `][` pair is collapsed to a dot). -/
def CleanKey (k : String) : Bool :=
  k.toList.all (fun c => c ≠ '.' && c ≠ '\'' && c ≠ '"' && c ≠ '[')

/-- Cleanliness of one path segment: clean object key, or an array index
small enough to be a canonical ECMAScript array index. -/
def CleanSeg : Seg → Bool
  | .okey k => CleanKey k
  | .aidx j => decide (j < 4294967295)

mutual
/-- A document whose round trip is exact: object key lists are duplicate-free
with clean keys, and arrays are shorter than the ECMAScript array bound. -/
def CleanDoc : JsVal → Bool
  | .obj fs => decide ((fs.map Prod.fst).Nodup) && CleanFields fs
  | .arr es => decide (es.length < 4294967295) && CleanElems es
  | .prim _ => true

/-- Cleanliness of an object's field list. -/
def CleanFields : List (String × JsVal) → Bool
  | [] => true
  | (k, v) :: fs => CleanKey k && CleanDoc v && CleanFields fs

/-- Cleanliness of an array's element list. -/
def CleanElems : List JsVal → Bool
  | [] => true
  | v :: es => CleanDoc v && CleanElems es
end

theorem digitChar10_spec (n : Nat) (h : n < 10) :
    (digitChar10 n).isDigit = true ∧ (digitChar10 n).toNat = 48 + n
    ∧ (n ≠ 0 → digitChar10 n ≠ '0') ∧ digitChar10 n ≠ '.' ∧ digitChar10 n ≠ '\'' := by
  interval_cases n <;> refine ⟨by decide, by decide, ?_, by decide, by decide⟩ <;> simp <;> decide

theorem natDigitsAux_spec (fuel : Nat) :
    ∀ n, n ≤ fuel →
      natDigitsAux fuel n ≠ []
      ∧ (∀ c ∈ natDigitsAux fuel n, c.isDigit = true)
      ∧ (n ≠ 0 → (natDigitsAux fuel n).head? ≠ some '0')
      ∧ digitsVal (natDigitsAux fuel n) = n := by
  induction fuel with
  | zero =>
    intro n hn
    have hn0 : n = 0 := Nat.le_zero.mp hn
    subst hn0
    refine ⟨by decide, ?_, by simp, by decide⟩
    intro c hc
    simp only [natDigitsAux, List.mem_singleton] at hc
    rw [hc]
    decide
  | succ fuel ih =>
    intro n hn
    by_cases hlt : n < 10
    · obtain ⟨hd1, hd2, hd3, _, _⟩ := digitChar10_spec n hlt
      rw [natDigitsAux, if_pos hlt]
      refine ⟨by simp, ?_, ?_, ?_⟩
      · intro c hc
        rw [List.mem_singleton] at hc
        rw [hc]
        exact hd1
      · intro hne heq
        rw [List.head?_cons, Option.some_inj] at heq
        exact hd3 hne heq
      · show digitsVal [digitChar10 n] = n
        unfold digitsVal
        simp [hd2]
    · rw [natDigitsAux, if_neg hlt]
      have h10 : 10 ≤ n := Nat.not_lt.mp hlt
      have hdiv : n / 10 ≤ fuel := by
        have h1 : n / 10 < n := Nat.div_lt_self (by omega) (by omega)
        omega
      obtain ⟨hne, hdig, hhd, hval⟩ := ih (n / 10) hdiv
      have hmod : n % 10 < 10 := Nat.mod_lt _ (by omega)
      obtain ⟨hm1, hm2, _, _, _⟩ := digitChar10_spec (n % 10) hmod
      refine ⟨by simp, ?_, ?_, ?_⟩
      · intro c hc
        rcases List.mem_append.mp hc with h1 | h2
        · exact hdig c h1
        · rw [List.mem_singleton] at h2
          rw [h2]
          exact hm1
      · intro _
        obtain ⟨x, xs, hxs⟩ := List.exists_cons_of_ne_nil hne
        rw [hxs, List.cons_append, List.head?_cons]
        have := hhd (by omega)
        rw [hxs, List.head?_cons] at this
        exact this
      · unfold digitsVal
        rw [List.foldl_append]
        show (digitsVal (natDigitsAux fuel (n / 10))) * 10 + ((digitChar10 (n % 10)).toNat - '0'.toNat) = n
        rw [hval, hm2]
        have h48 : '0'.toNat = 48 := by decide
        rw [h48]
        omega

theorem natDigits_spec (n : Nat) :
    natDigits n ≠ []
    ∧ (∀ c ∈ natDigits n, c.isDigit = true)
    ∧ (n ≠ 0 → (natDigits n).head? ≠ some '0')
    ∧ digitsVal (natDigits n) = n :=
  natDigitsAux_spec n n (Nat.le_refl n)

theorem isIntIndex_natDigits (n : Nat) (h : n < 4294967295) :
    isIntIndex ⟨natDigits n⟩ = true := by
  obtain ⟨hne, hdig, hhd, hval⟩ := natDigits_spec n
  unfold isIntIndex
  show (!(natDigits n).isEmpty && (natDigits n).all Char.isDigit
    && (decide (natDigits n = ['0']) || decide ((natDigits n).head? ≠ some '0'))
    && decide (digitsVal (natDigits n) < 4294967295)) = true
  rw [Bool.and_eq_true, Bool.and_eq_true, Bool.and_eq_true]
  refine ⟨⟨⟨?_, ?_⟩, ?_⟩, ?_⟩
  · rw [Bool.not_eq_true', List.isEmpty_eq_false_iff_exists_mem]
    obtain ⟨x, xs, hxs⟩ := List.exists_cons_of_ne_nil hne
    exact ⟨x, hxs ▸ List.mem_cons_self x xs⟩
  · rw [List.all_eq_true]
    exact hdig
  · by_cases hn : n = 0
    · subst hn
      rw [Bool.or_eq_true]
      left
      rw [decide_eq_true_iff]
      decide
    · rw [Bool.or_eq_true]
      right
      rw [decide_eq_true_iff]
      exact hhd hn
  · rw [decide_eq_true_iff, hval]
    exact h

theorem leavesFields_decomp (fs : List (String × JsVal)) (segs : List Seg) (p : Prim)
    (h : (segs, p) ∈ leavesFields fs) :
    ∃ k v tail, (k, v) ∈ fs ∧ segs = Seg.okey k :: tail ∧ (tail, p) ∈ leaves v := by
  induction fs with
  | nil => rw [leavesFields] at h; cases h
  | cons kv fs ih =>
    obtain ⟨k0, v0⟩ := kv
    rw [leavesFields] at h
    rcases List.mem_append.mp h with h1 | h2
    · obtain ⟨sp, hsp, heq⟩ := List.mem_map.mp h1
      rw [Prod.mk.injEq] at heq
      exact ⟨k0, v0, sp.1, List.mem_cons_self _ _, heq.1.symm, heq.2 ▸ hsp⟩
    · obtain ⟨k, v, tail, hm, hs, hl⟩ := ih h2
      exact ⟨k, v, tail, List.mem_cons_of_mem _ hm, hs, hl⟩

theorem leavesElems_decomp (es : List JsVal) (segs : List Seg) (p : Prim) :
    ∀ i, (segs, p) ∈ leavesElems es i →
      ∃ j v tail, es.get? j = some v ∧ segs = Seg.aidx (i + j) :: tail
        ∧ (tail, p) ∈ leaves v := by
  induction es with
  | nil => intro i h; rw [leavesElems] at h; cases h
  | cons e es ih =>
    intro i h
    rw [leavesElems] at h
    rcases List.mem_append.mp h with h1 | h2
    · obtain ⟨sp, hsp, heq⟩ := List.mem_map.mp h1
      rw [Prod.mk.injEq] at heq
      exact ⟨0, e, sp.1, rfl, by rw [← heq.1, Nat.add_zero], heq.2 ▸ hsp⟩
    · obtain ⟨j, v, tail, hg, hs, hl⟩ := ih (i + 1) h2
      refine ⟨j + 1, v, tail, hg, ?_, hl⟩
      rw [hs]
      have harith : i + 1 + j = i + (j + 1) := by omega
      rw [harith]

theorem leaves_nil_prim (v : JsVal) (p : Prim) (h : ([], p) ∈ leaves v) : v = .prim p := by
  cases v with
  | prim q =>
    rw [leaves, List.mem_singleton, Prod.mk.injEq] at h
    rw [h.2]
  | obj fs =>
    rw [leaves] at h
    obtain ⟨k, v', tail, _, hseg, _⟩ := leavesFields_decomp fs [] p h
    cases hseg
  | arr es =>
    rw [leaves] at h
    obtain ⟨j, v', tail, _, hseg, _⟩ := leavesElems_decomp es [] p 0 h
    cases hseg

theorem leaves_cons_truthy (v : JsVal) (s : Seg) (tail : List Seg) (p : Prim)
    (h : (s :: tail, p) ∈ leaves v) : v.truthy = true := by
  cases v with
  | prim q => rw [leaves, List.mem_singleton, Prod.mk.injEq] at h; cases h.1
  | obj fs => rfl
  | arr es => rfl

theorem CleanDoc_obj (fs : List (String × JsVal)) (h : CleanDoc (.obj fs) = true) :
    (fs.map Prod.fst).Nodup ∧ CleanFields fs = true := by
  rw [CleanDoc, Bool.and_eq_true, decide_eq_true_iff] at h
  exact h

theorem CleanDoc_arr (es : List JsVal) (h : CleanDoc (.arr es) = true) :
    es.length < 4294967295 ∧ CleanElems es = true := by
  rw [CleanDoc, Bool.and_eq_true, decide_eq_true_iff] at h
  exact h

theorem CleanFields_mem (fs : List (String × JsVal)) (k : String) (v : JsVal)
    (h : CleanFields fs = true) (hm : (k, v) ∈ fs) :
    CleanKey k = true ∧ CleanDoc v = true := by
  induction fs with
  | nil => cases hm
  | cons kv fs ih =>
    obtain ⟨k0, v0⟩ := kv
    rw [CleanFields, Bool.and_eq_true, Bool.and_eq_true] at h
    rcases List.mem_cons.mp hm with heq | htail
    · rw [Prod.mk.injEq] at heq
      exact ⟨heq.1 ▸ h.1.1, heq.2 ▸ h.1.2⟩
    · exact ih h.2 htail

theorem CleanElems_mem (es : List JsVal) (v : JsVal)
    (h : CleanElems es = true) (hm : v ∈ es) : CleanDoc v = true := by
  induction es with
  | nil => cases hm
  | cons e es ih =>
    rw [CleanElems, Bool.and_eq_true] at h
    rcases List.mem_cons.mp hm with heq | htail
    · exact heq ▸ h.1
    · exact ih h.2 htail

theorem mk_toList (s : String) : (⟨s.toList⟩ : String) = s := rfl

theorem replBrackets_id (cs : List Char) (h : '[' ∉ cs) : replBrackets cs = cs := by
  induction cs with
  | nil => rfl
  | cons c cs ih =>
    cases cs with
    | nil => rfl
    | cons c2 cs' =>
      rw [replBrackets]
      rw [if_neg]
      · rw [ih (fun hm => h (List.mem_cons_of_mem _ hm))]
      · rintro ⟨_, h2⟩
        exact h (h2 ▸ List.mem_cons_of_mem _ (List.mem_cons_self _ _))

theorem quoteToApos_id (cs : List Char) (h : '"' ∉ cs) : quoteToApos cs = cs := by
  unfold quoteToApos
  have : ∀ c ∈ cs, (if c = '"' then '\'' else c) = c := by
    intro c hc
    have hne : ¬(c = '"') := by
      intro he
      exact h (he ▸ hc)
    rw [if_neg hne]
  calc cs.map (fun c => if c = '"' then '\'' else c) = cs.map id :=
        List.map_congr_left this
    _ = cs := List.map_id cs

theorem CleanKey_chars (k : String) (h : CleanKey k = true) :
    ∀ c ∈ k.toList, c ≠ '.' ∧ c ≠ '\'' ∧ c ≠ '"' ∧ c ≠ '[' := by
  rw [CleanKey, List.all_eq_true] at h
  intro c hc
  have := h c hc
  simp only [Bool.and_eq_true, decide_eq_true_iff] at this
  exact ⟨this.1.1.1, this.1.1.2, this.1.2, this.2⟩

theorem segChars_okey_clean (k : String) (h : CleanKey k = true) :
    Seg.chars (.okey k) = '\'' :: (k.toList ++ ['\'']) := by
  rw [Seg.chars]
  have hq := CleanKey_chars k h
  rw [replBrackets_id k.toList (fun hm => (hq _ hm).2.2.2 rfl),
    quoteToApos_id k.toList (fun hm => (hq _ hm).2.2.1 rfl)]

theorem isDigit_ne (c : Char) (h : c.isDigit = true) : c ≠ '.' ∧ c ≠ '\'' := by
  constructor <;> intro he <;> subst he <;> exact absurd h (by decide)

theorem CleanSeg_chars_nodot (s : Seg) (h : CleanSeg s = true) : '.' ∉ s.chars := by
  cases s with
  | okey k =>
    rw [CleanSeg] at h
    rw [segChars_okey_clean k h]
    intro hm
    rcases List.mem_cons.mp hm with h1 | h2
    · cases h1
    · rcases List.mem_append.mp h2 with h3 | h4
      · exact (CleanKey_chars k h '.' h3).1 rfl
      · rw [List.mem_singleton] at h4
        cases h4
  | aidx j =>
    rw [Seg.chars]
    intro hm
    exact (isDigit_ne '.' ((natDigits_spec j).2.1 '.' hm)).1 rfl

theorem stripApos_quoted (k : String) (h : '\'' ∉ k.toList) :
    stripApos ⟨'\'' :: (k.toList ++ ['\''])⟩ = k := by
  unfold stripApos
  show (⟨List.filter (fun c => decide (c ≠ '\'')) ('\'' :: (k.toList ++ ['\'']))⟩ : String) = k
  rw [List.filter_cons_of_neg (by simp)]
  rw [List.filter_append]
  rw [List.filter_cons_of_neg (by simp)]
  rw [List.filter_eq_self.mpr (fun c hc => by
    simp only [decide_eq_true_iff]
    intro he
    exact h (he ▸ hc))]
  rw [List.filter_nil, List.append_nil]
  exact mk_toList k

theorem stripApos_digits (j : Nat) : stripApos ⟨natDigits j⟩ = ⟨natDigits j⟩ := by
  unfold stripApos
  show (⟨List.filter (fun c => decide (c ≠ '\'')) (natDigits j)⟩ : String) = _
  rw [List.filter_eq_self.mpr (fun c hc => by
    simp only [decide_eq_true_iff]
    exact (isDigit_ne c ((natDigits_spec j).2.1 c hc)).2)]

/-- The raw split segment corresponding to one path segment. -/
def segStr (s : Seg) : String :=
  ⟨s.chars⟩

theorem splitDotAux_nodot (cs : List Char) (hnd : '.' ∉ cs) :
    ∀ acc, splitDotAux cs acc = [acc.reverse ++ cs] := by
  induction cs with
  | nil => intro acc; simp [splitDotAux]
  | cons c cs ih =>
    intro acc
    have hc : ¬(c = '.') := fun he => hnd (he ▸ List.mem_cons_self c cs)
    rw [splitDotAux, if_neg hc, ih (fun hm => hnd (List.mem_cons_of_mem _ hm)) (c :: acc)]
    simp

theorem splitDotAux_append (x : List Char) (hnd : '.' ∉ x) :
    ∀ acc cs, splitDotAux (x ++ '.' :: cs) acc = (acc.reverse ++ x) :: splitDotAux cs [] := by
  induction x with
  | nil =>
    intro acc cs
    rw [List.nil_append, splitDotAux, if_pos rfl]
    simp
  | cons c x ih =>
    intro acc cs
    have hc : ¬(c = '.') := fun he => hnd (he ▸ List.mem_cons_self c x)
    rw [List.cons_append, splitDotAux, if_neg hc,
      ih (fun hm => hnd (List.mem_cons_of_mem _ hm)) (c :: acc) cs]
    simp

theorem splitDotAux_join (parts : List (List Char)) (hne : parts ≠ [])
    (hnd : ∀ p ∈ parts, '.' ∉ p) :
    splitDotAux (joinDot parts) [] = parts := by
  induction parts with
  | nil => cases hne rfl
  | cons x parts ih =>
    cases parts with
    | nil =>
      show splitDotAux (joinDot [x]) [] = [x]
      rw [joinDot, splitDotAux_nodot x (hnd x (List.mem_cons_self _ _)) []]
      simp
    | cons y parts' =>
      show splitDotAux (joinDot (x :: y :: parts')) [] = x :: y :: parts'
      have hj : joinDot (x :: y :: parts') = x ++ '.' :: joinDot (y :: parts') := rfl
      rw [hj, splitDotAux_append x (hnd x (List.mem_cons_self _ _)) [] _]
      rw [ih (List.cons_ne_nil _ _) (fun p hp => hnd p (List.mem_cons_of_mem _ hp))]
      simp

theorem splitDot_pathKey (segs : List Seg) (hne : segs ≠ [])
    (hnd : ∀ s ∈ segs, '.' ∉ s.chars) :
    splitDot (pathKey segs) = segs.map segStr := by
  unfold splitDot pathKey
  rw [show (⟨joinDot (segs.map Seg.chars)⟩ : String).toList
      = joinDot (segs.map Seg.chars) from rfl]
  rw [splitDotAux_join (segs.map Seg.chars) (by simpa using hne)
    (by
      intro p hp
      obtain ⟨s, hs, rfl⟩ := List.mem_map.mp hp
      exact hnd s hs)]
  rw [List.map_map]
  rfl

theorem find_first_nodup (fs : List (String × JsVal)) (k : String) (v : JsVal)
    (hnd : (fs.map Prod.fst).Nodup) (hm : (k, v) ∈ fs) :
    fs.find? (fun p => p.1 = k) = some (k, v) := by
  induction fs with
  | nil => cases hm
  | cons kv fs ih =>
    obtain ⟨k0, v0⟩ := kv
    rw [List.map_cons, List.nodup_cons] at hnd
    rcases List.mem_cons.mp hm with heq | htail
    · rw [Prod.mk.injEq] at heq
      rw [List.find?_cons_of_pos _ (by simp [heq.1])]
      rw [heq.1, heq.2]
    · have hk0 : ¬(k0 = k) := by
        intro he
        subst he
        exact hnd.1 (List.mem_map.mpr ⟨(k0, v), htail, rfl⟩)
      rw [List.find?_cons_of_neg _ (by simpa using hk0)]
      exact ih hnd.2 htail

theorem nodup_key_unique (fs : List (String × JsVal)) (k : String) (v w : JsVal)
    (hnd : (fs.map Prod.fst).Nodup) (h1 : (k, v) ∈ fs) (h2 : (k, w) ∈ fs) : v = w := by
  have e1 := find_first_nodup fs k v hnd h1
  have e2 := find_first_nodup fs k w hnd h2
  rw [e1] at e2
  injection e2 with e3
  injection e3 with _ e4

theorem getProp_obj (fs : List (String × JsVal)) (k : String) (v : JsVal)
    (hnd : (fs.map Prod.fst).Nodup) (hm : (k, v) ∈ fs) :
    JsVal.getProp (.obj fs) k = some v := by
  rw [JsVal.getProp, find_first_nodup fs k v hnd hm]
  rfl

theorem setProp_obj_self (fs : List (String × JsVal)) (k : String) (w : JsVal)
    (hnd : (fs.map Prod.fst).Nodup) (hm : (k, w) ∈ fs) :
    JsVal.setProp (.obj fs) k w = .ok (.obj fs) := by
  rw [JsVal.setProp]
  have hany : fs.any (fun p => p.1 = k) = true :=
    List.any_eq_true.mpr ⟨(k, w), hm, by simp⟩
  rw [if_pos hany]
  have hcong : ∀ p ∈ fs, (if p.1 = k then (k, w) else p) = p := by
    intro p hp
    by_cases hpk : p.1 = k
    · rw [if_pos hpk]
      obtain ⟨a, b⟩ := p
      simp only at hpk
      subst hpk
      rw [Prod.mk.injEq]
      exact ⟨rfl, nodup_key_unique fs a w b hnd hm hp⟩
    · rw [if_neg hpk]
  have hmap : fs.map (fun p => if p.1 = k then (k, w) else p) = fs :=
    calc fs.map (fun p => if p.1 = k then (k, w) else p) = fs.map id :=
          List.map_congr_left hcong
      _ = fs := List.map_id fs
  rw [hmap]

theorem list_set_self (es : List JsVal) (j : Nat) (v : JsVal)
    (h : es.get? j = some v) : es.set j v = es := by
  induction es generalizing j with
  | nil => cases h
  | cons e es ih =>
    cases j with
    | zero =>
      injection h with h
      rw [← h]
      rfl
    | succ j =>
      show e :: es.set j v = e :: es
      rw [ih j h]

theorem getProp_arr (es : List JsVal) (j : Nat) (v : JsVal)
    (hb : es.length < 4294967295) (h : es.get? j = some v) :
    JsVal.getProp (.arr es) ⟨natDigits j⟩ = some v := by
  have hj : j < es.length := by
    obtain ⟨hlt, _⟩ := List.get?_eq_some.mp h
    exact hlt
  rw [JsVal.getProp, if_pos (isIntIndex_natDigits j (by omega))]
  rw [show (⟨natDigits j⟩ : String).toList = natDigits j from rfl]
  rw [(natDigits_spec j).2.2.2]
  exact h

theorem setProp_arr_self (es : List JsVal) (j : Nat) (v : JsVal)
    (hb : es.length < 4294967295) (h : es.get? j = some v) :
    JsVal.setProp (.arr es) ⟨natDigits j⟩ v = .ok (.arr es) := by
  have hj : j < es.length := by
    obtain ⟨hlt, _⟩ := List.get?_eq_some.mp h
    exact hlt
  rw [JsVal.setProp, if_pos (isIntIndex_natDigits j (by omega))]
  rw [show (⟨natDigits j⟩ : String).toList = natDigits j from rfl]
  rw [(natDigits_spec j).2.2.2]
  show (if j < es.length then Except.ok (JsVal.arr (es.set j v))
    else Except.ok (JsVal.arr
      (es ++ List.replicate (j - es.length) (JsVal.prim (Prim.str "")) ++ [v])))
      = Except.ok (JsVal.arr es)
  rw [if_pos hj, list_set_self es j v h]

theorem foldl_fix {α β : Type} (f : α → β → α) (a : α) (ks : List β)
    (h : ∀ k ∈ ks, f a k = a) : ks.foldl f a = a := by
  induction ks with
  | nil => rfl
  | cons k ks ih =>
    rw [List.foldl_cons, h k (List.mem_cons_self _ _)]
    exact ih (fun k' hk' => h k' (List.mem_cons_of_mem _ hk'))

theorem jsGet_mem (m : List (String × Prim)) (k : String) (v : Prim)
    (h : jsGet m k = some v) : (k, v) ∈ m := by
  unfold jsGet at h
  cases hf : m.find? (fun p => p.1 = k) with
  | none => rw [hf] at h; cases h
  | some p0 =>
    rw [hf] at h
    injection h with h
    have hp := List.find?_some hf
    have hmem := List.mem_of_find?_eq_some hf
    obtain ⟨a, b⟩ := p0
    simp only [decide_eq_true_iff] at hp
    simp only at h
    rw [← hp, ← h]
    exact hmem

theorem jsSet_mem (m : List (String × Prim)) (k0 : String) (v0 : Prim)
    (k : String) (v : Prim) (h : (k, v) ∈ jsSet m k0 v0) :
    (k, v) ∈ m ∨ (k, v) = (k0, v0) := by
  unfold jsSet at h
  by_cases hany : m.any (fun p => p.1 = k0) = true
  · rw [if_pos hany] at h
    obtain ⟨p, hp, heq⟩ := List.mem_map.mp h
    by_cases hpk : p.1 = k0
    · rw [if_pos hpk] at heq
      right
      exact heq.symm
    · rw [if_neg hpk] at heq
      left
      exact heq ▸ hp
  · rw [if_neg hany] at h
    rcases List.mem_append.mp h with h1 | h2
    · left; exact h1
    · right; simpa using h2

theorem foldl_jsSet_mem (l : List (String × Prim)) (k : String) (v : Prim) :
    ∀ m, (k, v) ∈ l.foldl (fun m kv => jsSet m kv.1 kv.2) m → (k, v) ∈ m ∨ (k, v) ∈ l := by
  induction l with
  | nil => intro m h; left; exact h
  | cons kv l ih =>
    intro m h
    rcases ih (jsSet m kv.1 kv.2) h with h1 | h2
    · rcases jsSet_mem m kv.1 kv.2 k v h1 with ha | hb
      · left; exact ha
      · right
        rw [hb]
        exact List.mem_cons_self _ _
    · right; exact List.mem_cons_of_mem _ h2

theorem leaves_segs_clean (segs : List Seg) :
    ∀ (v : JsVal), CleanDoc v = true → ∀ p, (segs, p) ∈ leaves v →
      ∀ s ∈ segs, CleanSeg s = true := by
  induction segs with
  | nil =>
    intro v _ p _ s hs
    cases hs
  | cons s0 tail ih =>
    intro v hc p h s hs
    cases v with
    | prim q =>
      rw [leaves, List.mem_singleton, Prod.mk.injEq] at h
      cases h.1
    | obj fs =>
      rw [leaves] at h
      obtain ⟨k, v', tail', hm, hseq, hl⟩ := leavesFields_decomp fs _ p h
      injection hseq with hs0 htl
      subst htl
      obtain ⟨hnd, hcf⟩ := CleanDoc_obj fs hc
      obtain ⟨hck, hcv⟩ := CleanFields_mem fs k v' hcf hm
      rcases List.mem_cons.mp hs with hhd | htl2
      · rw [hhd, hs0]
        exact hck
      · exact ih v' hcv p hl s htl2
    | arr es =>
      rw [leaves] at h
      obtain ⟨j, v', tail', hg, hseq, hl⟩ := leavesElems_decomp es _ p 0 h
      rw [Nat.zero_add] at hseq
      injection hseq with hs0 htl
      subst htl
      obtain ⟨hlen, hce⟩ := CleanDoc_arr es hc
      obtain ⟨hlt, hget⟩ := List.get?_eq_some.mp hg
      have hcv : CleanDoc v' = true :=
        CleanElems_mem es v' hce (hget ▸ List.get_mem es j hlt)
      rcases List.mem_cons.mp hs with hhd | htl2
      · rw [hhd, hs0]
        show decide (j < 4294967295) = true
        rw [decide_eq_true_iff]
        omega
      · exact ih v' hcv p hl s htl2

theorem assign_leaf_fix (segs : List Seg) :
    ∀ (v : JsVal), CleanDoc v = true → ∀ p, (segs, p) ∈ leaves v →
      assignPath v (segs.map segStr) p = .ok v := by
  induction segs with
  | nil =>
    intro v _ p _
    rfl
  | cons s0 tail ih =>
    intro v hc p h
    cases v with
    | prim q =>
      rw [leaves, List.mem_singleton, Prod.mk.injEq] at h
      cases h.1
    | obj fs =>
      rw [leaves] at h
      obtain ⟨k, v', tail', hm, hseq, hl⟩ := leavesFields_decomp fs _ p h
      injection hseq with hs0 htl
      subst htl
      obtain ⟨hnd, hcf⟩ := CleanDoc_obj fs hc
      obtain ⟨hck, hcv⟩ := CleanFields_mem fs k v' hcf hm
      have hstrip : stripApos (segStr s0) = k := by
        rw [hs0]
        show stripApos ⟨Seg.chars (.okey k)⟩ = k
        rw [segChars_okey_clean k hck]
        exact stripApos_quoted k (fun hm' => (CleanKey_chars k hck '\'' hm').2.1 rfl)
      cases tail with
      | nil =>
        have hv' : v' = .prim p := leaves_nil_prim v' p hl
        show JsVal.setProp (.obj fs) (stripApos (segStr s0)) (.prim p) = .ok (.obj fs)
        rw [hstrip]
        exact setProp_obj_self fs k (.prim p) hnd (hv' ▸ hm)
      | cons t ts =>
        show putBack (.obj fs) (stripApos (segStr s0))
            (assignPath
              (match JsVal.getProp (.obj fs) (stripApos (segStr s0)) with
                | some c => if c.truthy then c else defaultChild (segStr t)
                | none => defaultChild (segStr t))
              (segStr t :: ts.map segStr) p)
          = .ok (.obj fs)
        rw [hstrip, getProp_obj fs k v' hnd hm]
        simp only
        rw [if_pos (leaves_cons_truthy v' t ts p hl)]
        rw [show segStr t :: ts.map segStr = (t :: ts).map segStr from rfl]
        rw [ih v' hcv p hl]
        exact setProp_obj_self fs k v' hnd hm
    | arr es =>
      rw [leaves] at h
      obtain ⟨j, v', tail', hg, hseq, hl⟩ := leavesElems_decomp es _ p 0 h
      rw [Nat.zero_add] at hseq
      injection hseq with hs0 htl
      subst htl
      obtain ⟨hlen, hce⟩ := CleanDoc_arr es hc
      obtain ⟨hlt, hget⟩ := List.get?_eq_some.mp hg
      have hcv : CleanDoc v' = true :=
        CleanElems_mem es v' hce (hget ▸ List.get_mem es j hlt)
      have hstrip : stripApos (segStr s0) = ⟨natDigits j⟩ := by
        rw [hs0]
        exact stripApos_digits j
      cases tail with
      | nil =>
        have hv' : v' = .prim p := leaves_nil_prim v' p hl
        show JsVal.setProp (.arr es) (stripApos (segStr s0)) (.prim p) = .ok (.arr es)
        rw [hstrip]
        exact setProp_arr_self es j (.prim p) hlen (hv' ▸ hg)
      | cons t ts =>
        show putBack (.arr es) (stripApos (segStr s0))
            (assignPath
              (match JsVal.getProp (.arr es) (stripApos (segStr s0)) with
                | some c => if c.truthy then c else defaultChild (segStr t)
                | none => defaultChild (segStr t))
              (segStr t :: ts.map segStr) p)
          = .ok (.arr es)
        rw [hstrip, getProp_arr es j v' hlen hg]
        simp only
        rw [if_pos (leaves_cons_truthy v' t ts p hl)]
        rw [show segStr t :: ts.map segStr = (t :: ts).map segStr from rfl]
        rw [ih v' hcv p hl]
        exact setProp_arr_self es j v' hlen hg

/-- A document node that is an object or an array (JSON-stringifying a
scalar and parsing it back gives the scalar itself, so a scalar-root
document makes the `keys.reduce` walk start on a primitive accumulator). -/
def JsVal.isContainer : JsVal → Bool
  | .prim _ => false
  | _ => true

def dDotKey : JsVal := .obj [("a.b", .prim (.str "x"))]

/-- C1 counterexample: a document whose object key contains a dot does not
round-trip even with itself as the base: the flattened key splits at the
key-internal dot, so unflatten grows a fresh nested object next to the
original field (no write throws here, so the run completes — with the wrong
document). -/
theorem roundtrip_counterexample :
    unflattenObject (flattenObject dDotKey) dDotKey ≠ .ok dDotKey := by decide

/-- C1 amended: for every container-rooted document whose object key lists
are duplicate-free with keys free of `.`, `'`, `"` and `[`, and whose
arrays are below the ECMAScript index bound, unflattening the result of
flattening the document with the document itself as base completes and
yields the document back — every key of the flat map addresses the leaf it
came from and re-assigns the value it already has, and empty containers
survive in the base copy.  A scalar-root document, by contrast, never
completes the round trip: its single flattened entry has key `""`, and the
leaf write `acc[""] = v` executes on a primitive accumulator, a TypeError
in this strict-mode module. -/
theorem unflatten_flatten_roundtrip (d : JsVal) (hc : CleanDoc d = true)
    (hroot : d.isContainer = true) :
    unflattenObject (flattenObject d) d = .ok d
    ∧ ∀ p : Prim, unflattenObject (flattenObject (.prim p)) (.prim p) = .error () := by
  constructor
  · unfold unflattenObject
    apply foldl_fix
    intro k _
    cases hv : jsGet (flattenObject d) k with
    | none => rfl
    | some v =>
      show assignPath d (splitDot k) v = .ok d
      have hmem0 : (k, v) ∈ flattenObject d := jsGet_mem _ _ _ hv
      have hmem1 : (k, v) ∈ flattenRaw d [] := by
        rcases foldl_jsSet_mem (flattenRaw d []) k v [] hmem0 with h1 | h2
        · cases h1
        · exact h2
      rw [flattenRaw_eq_leaves d []] at hmem1
      obtain ⟨sp, hsp, heq⟩ := List.mem_map.mp hmem1
      obtain ⟨segs, p⟩ := sp
      rw [Prod.mk.injEq] at heq
      simp only [List.nil_append] at heq
      obtain ⟨hkeq, hveq⟩ := heq
      cases segs with
      | nil =>
        have hd : d = .prim p := leaves_nil_prim d p hsp
        rw [hd] at hroot
        simp [JsVal.isContainer] at hroot
      | cons s0 rest =>
        have hclean := leaves_segs_clean (s0 :: rest) d hc p hsp
        have hsplit : splitDot k = (s0 :: rest).map segStr := by
          rw [← hkeq]
          exact splitDot_pathKey (s0 :: rest) (List.cons_ne_nil _ _)
            (fun s hs => CleanSeg_chars_nodot s (hclean s hs))
        rw [hsplit, ← hveq]
        exact assign_leaf_fix (s0 :: rest) d hc p hsp
  · intro p
    rfl

def dRound : JsVal :=
  .obj [("a", .obj [("b", .prim (.str "Hello")), ("e", .obj [])]),
        ("z", .arr [.prim (.num 1), .prim (.str "s"), .prim (.bool true)]),
        ("w", .arr [])]

/-- Witness for C1 at a concrete nested document with arrays, non-string
scalars and empty containers, plus the error on a concrete scalar root. -/
theorem unflatten_flatten_roundtrip_witness :
    CleanDoc dRound = true ∧ JsVal.isContainer dRound = true
    ∧ unflattenObject (flattenObject dRound) dRound = .ok dRound
    ∧ unflattenObject (flattenObject (.prim (.str "x"))) (.prim (.str "x")) = .error () :=
  ⟨by decide, by decide,
    (unflatten_flatten_roundtrip dRound (by decide) (by decide)).1,
    (unflatten_flatten_roundtrip dRound (by decide) (by decide)).2 (.str "x")⟩
